import Mathlib

/-!
Verification of the PyYapf plugin's text-transformation pipeline
(src/PyYapf.py), shallowly embedded over lists of characters.

Modelling conventions:
* Text is a list of characters; the only line terminator is the newline
  character, as in Sublime buffers and in the plugin after its
  os.linesep normalization step.
* Python whitespace sets are modelled over their ASCII parts.
* Fallible Python code (IndexError from indexing, assert failures)
  returns an Except value.
-/

namespace PyYapf

abbrev Str := List Char

/-- Python text.endswith of a single newline. -/
def endsNl (t : Str) : Bool := t.getLast? == some '\n'

/-- Python text.split with separator a newline: the list of segments
between newline characters.  Never empty. -/
def splitNl : Str → List Str
  | [] => [[]]
  | c :: cs =>
    if c = '\n' then [] :: splitNl cs
    else
      match splitNl cs with
      | [] => [[c]]
      | s :: ss => (c :: s) :: ss

/-- Join segments back with a newline between consecutive segments. -/
def joinNl : List Str → Str
  | [] => []
  | [s] => s
  | s :: ss => s ++ '\n' :: joinNl ss

/-- The character class of the regular expressions in textwrap.dedent:
a space or a tab. -/
def isBlankChar (c : Char) : Bool := c == ' ' || c == '\t'

/-- The ASCII part of the whitespace stripped by Python str.strip. -/
def isPySpace (c : Char) : Bool :=
  c == ' ' || c == '\t' || c == '\n' || c == '\r' || c == '\x0b' || c == '\x0c'

/-- Python line.strip() is truthy: the line has a non-whitespace char.
This is the default predicate of textwrap.indent. -/
def hasContent (l : Str) : Bool := l.any (fun c => ! isPySpace c)

/-- A line matched by the whitespace-only regular expression of
textwrap.dedent: nonempty and made of spaces and tabs only. -/
def wsOnly (l : Str) : Bool := !l.isEmpty && l.all isBlankChar

/-- The substitution of the whitespace-only regular expression in
textwrap.dedent: whitespace-only lines become empty. -/
def normalizeBlankLine (l : Str) : Str := if wsOnly l then [] else l

/-- The leading run of spaces and tabs of one line. -/
def lineIndent (l : Str) : Str := l.takeWhile isBlankChar

/-- A line matched by the leading-whitespace regular expression of
textwrap.dedent: it has a character beyond its space-and-tab run
(segments contain no newline). -/
def isContentLine (l : Str) : Bool := !(l.dropWhile isBlankChar).isEmpty

/-- Longest common prefix of two lines. -/
def commonPre : Str → Str → Str
  | a :: as, b :: bs => if a = b then a :: commonPre as bs else []
  | _, _ => []

/-- One step of the margin loop in textwrap.dedent. -/
def marginStep (m ind : Str) : Str :=
  if m.isPrefixOf ind then m
  else if ind.isPrefixOf m then ind
  else commonPre m ind

/-- The margin substitution of textwrap.dedent: remove the margin from
the start of every line beginning with it. -/
def stripMargin (m : Str) (l : Str) : Str :=
  if m.isPrefixOf l then l.drop m.length else l

/-- The lines of textwrap.dedent's input after the whitespace-only
normalization. -/
def dedentSegs (text : Str) : List Str := (splitNl text).map normalizeBlankLine

/-- The indents collected by the leading-whitespace findall of
textwrap.dedent. -/
def dedentIndents (text : Str) : List Str :=
  ((dedentSegs text).filter isContentLine).map lineIndent

/-- Python textwrap.dedent: normalize whitespace-only lines to empty,
compute the margin of the content lines, and strip it from every line
starting with it. -/
def pydedent (text : Str) : Str :=
  let segs := dedentSegs text
  match dedentIndents text with
  | [] => joinNl segs
  | i :: is =>
    let m := is.foldl marginStep i
    if m.isEmpty then joinNl segs
    else joinNl (segs.map (stripMargin m))

/-- The ways the dedent helper can fail: an IndexError from indexing an
empty splitlines list, or the failure of the defensive assert. -/
inductive PyErr
  | indexError
  | assertionError
  deriving DecidableEq, Repr

instance {ε α : Type} [DecidableEq ε] [DecidableEq α] : DecidableEq (Except ε α) :=
  fun a b =>
    match a, b with
    | .ok x, .ok y =>
      if h : x = y then .isTrue (by rw [h])
      else .isFalse (fun hc => h (Except.ok.inj hc))
    | .error x, .error y =>
      if h : x = y then .isTrue (by rw [h])
      else .isFalse (fun hc => h (Except.error.inj hc))
    | .ok _, .error _ => .isFalse (fun hc => Except.noConfusion hc)
    | .error _, .ok _ => .isFalse (fun hc => Except.noConfusion hc)

/-- Python text.splitlines() in the newline-only model: like splitNl,
but the empty text has no lines and a trailing newline produces no
final empty line. -/
def pySplitlines (t : Str) : List Str :=
  if t.isEmpty then []
  else if endsNl t then (splitNl t).dropLast
  else splitNl t

/-- Python text.splitlines()[0]: IndexError when there is no line. -/
def pyFirstLine (t : Str) : Except PyErr Str :=
  match pySplitlines t with
  | [] => .error .indexError
  | l :: _ => .ok l

/-- dedent_text from src/PyYapf.py: dedent, recover the removed indent
from the first lines, assert the suffix relation, and record whether
the text had a trailing newline. -/
def dedent_text (text : Str) : Except PyErr (Str × Str × Bool) :=
  match pyFirstLine text with
  | .error e => .error e
  | .ok old_first =>
    match pyFirstLine (pydedent text) with
    | .error e => .error e
    | .ok new_first =>
      if new_first.isSuffixOf old_first then
        let ind := old_first.take (old_first.length - new_first.length)
        let trailing_nl := endsNl text
        .ok (pydedent text, ind, trailing_nl)
      else
        .error .assertionError

/-- Python text.splitlines(keepends=True) in the newline-only model. -/
def splitKeepNl : Str → List Str
  | [] => []
  | c :: cs =>
    if c = '\n' then [c] :: splitKeepNl cs
    else
      match splitKeepNl cs with
      | [] => [[c]]
      | l :: ls => (c :: l) :: ls

/-- Python textwrap.indent with the default predicate: join the
kept-ends lines, prefixing exactly those whose strip is truthy. -/
def pytextwrapIndent (text pre : Str) : Str :=
  ((splitKeepNl text).map (fun line => if hasContent line then pre ++ line else line)).flatten

/-- indent_text from src/PyYapf.py: reindent via textwrap.indent, then
drop one trailing newline when the original selection had none. -/
def indent_text (text ind : Str) (trailing_nl : Bool) : Str :=
  if !trailing_nl && endsNl (pytextwrapIndent text ind) then
    (pytextwrapIndent text ind).dropLast
  else
    pytextwrapIndent text ind

/-- Index of the first occurrence of a pattern in a line, if any. -/
def findSub (pat : Str) : Str → Option Nat
  | [] => if pat.isPrefixOf ([] : Str) then some 0 else none
  | c :: cs =>
    if pat.isPrefixOf (c :: cs) then some 0
    else (findSub pat cs).map (· + 1)

/-- Python pat in s. -/
def containsSub (s pat : Str) : Bool := (findSub pat s).isSome

/-- Python s.find(pat): first index, or -1 when absent. -/
def pyFind (s pat : Str) : Int :=
  match findSub pat s with
  | some i => (i : Int)
  | none => -1

/-- Python s.drop-style slice s[i:] with Python's negative-index rule. -/
def pySliceFrom (s : Str) (i : Int) : Str :=
  if 0 ≤ i then s.drop i.toNat
  else s.drop (max ((s.length : Int) + i) 0).toNat

/-- Python s.capitalize(): first character uppercased, the rest
lowercased. -/
def pyCapitalize : Str → Str
  | [] => []
  | c :: cs => c.toUpper :: cs.map Char.toLower

/-- Python negative indexing ls[-k] on a list of lines. -/
def pyGetNeg (ls : List Str) (k : Nat) : Except PyErr Str :=
  if 0 < k ∧ k ≤ ls.length then
    match ls.get? (ls.length - k) with
    | some x => .ok x
    | none => .error .indexError
  else .error .indexError

/-- The error-classification block of Yapf.format in src/PyYapf.py,
applied to the decoded, newline-normalized standard-error text: take
the last line; if it mentions InternalError it is the whole message,
otherwise append in parentheses the capitalized tail of the 4th-from-
last line starting at its first occurrence of the token line. -/
def formatErrorMessage (err : Str) : Except PyErr Str :=
  match pyGetNeg (pySplitlines err) 1 with
  | .error e => .error e
  | .ok msg =>
    if containsSub msg "InternalError".data then
      .ok msg
    else
      match pyGetNeg (pySplitlines err) 4 with
      | .error e => .error e
      | .ok loc =>
        .ok (msg ++ " (".data
          ++ pyCapitalize (pySliceFrom loc (pyFind loc "line".data)) ++ ")".data)

/-- The message built for a UnicodeEncodeError in Yapf.format.  The
repr rendering of the exception and of the encoding name is folded
into the two arguments. -/
def unicodeErrorMessage (errDetail encoding : Str) : Str :=
  "UnicodeEncodeError: ".data ++ errDetail
    ++ "\n\nYou may need to re-open this file with a different encoding. Current encoding is ".data
    ++ encoding ++ ".".data

/-- The observable outcome of one Yapf.format call: the replacement
applied to the document region, if any, and the error messages
surfaced via self.error. -/
structure FormatResult where
  replaced : Option Str
  surfaced : List Str
  deriving DecidableEq, Repr

/-- Yapf.format from src/PyYapf.py as a function of its environment:
the selected text, the document encoding, whether byte-encoding the
dedented text fails (and with which exception text), the formatter
exit code, and the decoded, newline-normalized standard output and
standard error.  Subprocess mechanics live outside the model; crashes
from IndexError or the dedent assert are Except errors. -/
def format (selectionText encoding : Str) (encodeErr : Option Str)
    (returncode : Int) (outputDecoded errDecoded : Str) :
    Except PyErr FormatResult :=
  match dedent_text selectionText with
  | .error e => .error e
  | .ok (_dedented, ind, trailing_nl) =>
    match encodeErr with
    | some e => .ok ⟨none, [unicodeErrorMessage e encoding]⟩
    | none =>
      if returncode ≠ 0 ∧ returncode ≠ 2 then
        match formatErrorMessage errDecoded with
        | .error e => .error e
        | .ok msg => .ok ⟨none, [msg]⟩
      else
        .ok ⟨some (indent_text outputDecoded ind trailing_nl), []⟩

/-- The status-bar tag written by Yapf.error. -/
def pluginTag : Str := "PyYapf: ".data

/-- Python separator.join on a list of lines. -/
def joinWith (sep : Str) : List Str → Str
  | [] => []
  | [s] => s
  | s :: ss => s ++ sep ++ joinWith sep ss

/-- The error-accumulation state of one Yapf instance: the errors list
and the status-bar string (none models the erased status). -/
structure YapfErrState where
  errors : List Str
  status : Option Str
  deriving DecidableEq, Repr

/-- Yapf.__init__ (the error-state part): erase the status and start
with an empty error list. -/
def yapfInit : YapfErrState := ⟨[], none⟩

/-- Yapf.error: append the message and rewrite the status bar with all
accumulated messages joined by a comma. -/
def yapfError (st : YapfErrState) (msg : Str) : YapfErrState :=
  ⟨st.errors ++ [msg],
   some (pluginTag ++ joinWith ", ".data (st.errors ++ [msg]))⟩

/-- The kept-ends chunks corresponding to a segment list: every
segment but the last carries its newline; a final empty segment
produces no chunk. -/
def chunksOfSegs : List Str → List Str
  | [] => []
  | [s] => if s.isEmpty then [] else [s]
  | s :: ss => (s ++ ['\n']) :: chunksOfSegs ss

/-- The margin computed inside pydedent. -/
def dedentMargin (text : Str) : Str :=
  match dedentIndents text with
  | [] => []
  | i :: is => is.foldl marginStep i

/-- Stated from the spec's words, for comparison with the code: a text
has uniform leading indentation ind on its non-blank lines when every
line is either blank (whitespace only) or has exactly ind as its
leading whitespace run. -/
def uniformIndentOnNonBlank (ind : Str) (text : Str) : Bool :=
  (splitNl text).all (fun l => l.all isPySpace || lineIndent l == ind)

/-- A concrete formatter stderr in the shape of Scenario B: four
lines, the last a syntax-error summary, the 4th-from-last carrying the
location hint after the token line. -/
def scenarioBStderr : Str :=
  "  File \"pasted\", line 3, column 5\n    foo(\n        ^\nSyntaxError: invalid syntax".data

/-! ### Structural lemmas about the line model -/

theorem splitNl_nil : splitNl [] = [[]] := rfl

theorem splitNl_cons_nl (cs : Str) : splitNl ('\n' :: cs) = [] :: splitNl cs := by
  simp [splitNl]

theorem splitNl_cons_of_ne (c : Char) (cs : Str) (h : c ≠ '\n') (s : Str) (ss : List Str)
    (hcs : splitNl cs = s :: ss) : splitNl (c :: cs) = (c :: s) :: ss := by
  simp [splitNl, h, hcs]

theorem splitNl_ne_nil (t : Str) : splitNl t ≠ [] := by
  induction t with
  | nil => simp [splitNl]
  | cons c cs ih =>
    by_cases h : c = '\n'
    · subst h; simp [splitNl_cons_nl]
    · cases hcs : splitNl cs with
      | nil => exact absurd hcs ih
      | cons s ss => rw [splitNl_cons_of_ne c cs h s ss hcs]; simp

theorem joinNl_cons_cons (s a : Str) (as : List Str) :
    joinNl (s :: a :: as) = s ++ '\n' :: joinNl (a :: as) := rfl

theorem joinNl_splitNl (t : Str) : joinNl (splitNl t) = t := by
  induction t with
  | nil => rfl
  | cons c cs ih =>
    by_cases h : c = '\n'
    · subst h
      rw [splitNl_cons_nl]
      cases hcs : splitNl cs with
      | nil => exact absurd hcs (splitNl_ne_nil cs)
      | cons s ss =>
        rw [hcs] at ih
        rw [joinNl_cons_cons, ih]
        rfl
    · cases hcs : splitNl cs with
      | nil => exact absurd hcs (splitNl_ne_nil cs)
      | cons s ss =>
        rw [splitNl_cons_of_ne c cs h s ss hcs]
        rw [hcs] at ih
        cases ss with
        | nil =>
          simp only [joinNl] at ih ⊢
          rw [ih]
        | cons b bs =>
          rw [joinNl_cons_cons] at ih
          rw [joinNl_cons_cons]
          simp only [List.cons_append, ih]

theorem not_newline_mem_splitNl (t : Str) (l : Str) (hl : l ∈ splitNl t) : '\n' ∉ l := by
  induction t generalizing l with
  | nil => simp [splitNl] at hl; subst hl; simp
  | cons c cs ih =>
    by_cases h : c = '\n'
    · subst h
      rw [splitNl_cons_nl] at hl
      rcases List.mem_cons.mp hl with hl | hl
      · subst hl; simp
      · exact ih l hl
    · cases hcs : splitNl cs with
      | nil => exact absurd hcs (splitNl_ne_nil cs)
      | cons s ss =>
        rw [splitNl_cons_of_ne c cs h s ss hcs] at hl
        rcases List.mem_cons.mp hl with hl | hl
        · subst hl
          intro hmem
          rcases List.mem_cons.mp hmem with hmem | hmem
          · exact h hmem.symm
          · exact ih s (by rw [hcs]; exact List.mem_cons_self s ss) hmem
        · exact ih l (by rw [hcs]; exact List.mem_cons_of_mem s hl)

theorem splitNl_of_no_newline (l : Str) (h : '\n' ∉ l) : splitNl l = [l] := by
  induction l with
  | nil => rfl
  | cons c cs ih =>
    have hc : c ≠ '\n' := fun hc => h (hc ▸ List.mem_cons_self c cs)
    have hcs : splitNl cs = [cs] := ih (fun hm => h (List.mem_cons_of_mem c hm))
    exact splitNl_cons_of_ne c cs hc cs [] hcs

theorem splitNl_append_nl_cons (l r : Str) (h : '\n' ∉ l) :
    splitNl (l ++ '\n' :: r) = l :: splitNl r := by
  induction l with
  | nil => simpa using splitNl_cons_nl r
  | cons c cs ih =>
    have hc : c ≠ '\n' := fun hc => h (hc ▸ List.mem_cons_self c cs)
    have hcs := ih (fun hm => h (List.mem_cons_of_mem c hm))
    simpa using splitNl_cons_of_ne c (cs ++ '\n' :: r) hc cs (splitNl r) hcs

theorem splitNl_joinNl (ls : List Str) (hne : ls ≠ [])
    (h : ∀ l ∈ ls, '\n' ∉ l) : splitNl (joinNl ls) = ls := by
  induction ls with
  | nil => exact absurd rfl hne
  | cons l ls ih =>
    cases ls with
    | nil =>
      simp only [joinNl]
      exact splitNl_of_no_newline l (h l (List.mem_cons_self l []))
    | cons a as =>
      rw [joinNl_cons_cons]
      rw [splitNl_append_nl_cons l (joinNl (a :: as)) (h l (List.mem_cons_self _ _))]
      rw [ih (by simp) (fun x hx => h x (List.mem_cons_of_mem l hx))]

theorem splitNl_append_newline (u : Str) : splitNl (u ++ ['\n']) = splitNl u ++ [[]] := by
  induction u with
  | nil => rfl
  | cons c cs ih =>
    by_cases h : c = '\n'
    · subst h
      simp only [List.cons_append, splitNl_cons_nl, ih]
    · cases hcs : splitNl cs with
      | nil => exact absurd hcs (splitNl_ne_nil cs)
      | cons s ss =>
        rw [hcs] at ih
        have : splitNl (cs ++ ['\n']) = s :: (ss ++ [[]]) := by rw [ih]; rfl
        rw [List.cons_append, splitNl_cons_of_ne c (cs ++ ['\n']) h s (ss ++ [[]]) this,
          splitNl_cons_of_ne c cs h s ss hcs]
        rfl

theorem joinNl_append_nil (ls : List Str) (hne : ls ≠ []) :
    joinNl (ls ++ [[]]) = joinNl ls ++ ['\n'] := by
  induction ls with
  | nil => exact absurd rfl hne
  | cons l ls ih =>
    cases ls with
    | nil => rfl
    | cons a as =>
      have : joinNl ((l :: a :: as) ++ [[]]) = l ++ '\n' :: joinNl ((a :: as) ++ [[]]) := rfl
      rw [this, ih (by simp), joinNl_cons_cons]
      simp

theorem joinNl_cons_eq_nil_iff (l : Str) (ls : List Str) :
    joinNl (l :: ls) = [] ↔ l = [] ∧ ls = [] := by
  cases ls with
  | nil => simp [joinNl]
  | cons a as => rw [joinNl_cons_cons]; simp

theorem endsNl_iff (t : Str) : endsNl t = true ↔ t.getLast? = some '\n' := by
  simp [endsNl]

theorem endsNl_eq_dropLast_concat (t : Str) (h : endsNl t = true) :
    t = t.dropLast ++ ['\n'] := by
  rw [endsNl_iff] at h
  have hne : t ≠ [] := by intro he; subst he; simp at h
  have := List.dropLast_append_getLast hne
  have hlast : t.getLast hne = '\n' := by
    have := List.getLast?_eq_getLast t hne
    rw [this] at h
    exact Option.some.inj h
  rw [← hlast]
  exact this.symm

theorem endsNl_two_le (t : Str) (h : endsNl t = true) : 2 ≤ (splitNl t).length := by
  have ht := endsNl_eq_dropLast_concat t h
  rw [ht, splitNl_append_newline]
  have := splitNl_ne_nil t.dropLast
  have : 1 ≤ (splitNl t.dropLast).length := List.length_pos.mpr this
  simp only [List.length_append, List.length_cons, List.length_nil]
  omega

theorem pyFirstLine_of_ne_nil (t : Str) (h : t ≠ []) :
    pyFirstLine t = .ok ((splitNl t).headI) := by
  unfold pyFirstLine pySplitlines
  rw [if_neg (by simpa using h)]
  by_cases he : endsNl t
  · rw [if_pos he]
    have ht := endsNl_eq_dropLast_concat t he
    rw [ht, splitNl_append_newline, List.dropLast_concat]
    cases hu : splitNl t.dropLast with
    | nil => exact absurd hu (splitNl_ne_nil _)
    | cons s ss => simp
  · rw [if_neg he]
    cases hu : splitNl t with
    | nil => exact absurd hu (splitNl_ne_nil _)
    | cons s ss => simp

theorem pyFirstLine_ok_ne_nil (t : Str) (x : Str) (h : pyFirstLine t = .ok x) : t ≠ [] := by
  intro he
  subst he
  simp [pyFirstLine, pySplitlines] at h

/-! ### The kept-ends chunks of textwrap.indent, related to splitNl -/

theorem chunksOfSegs_cons_cons (s a : Str) (as : List Str) :
    chunksOfSegs (s :: a :: as) = (s ++ ['\n']) :: chunksOfSegs (a :: as) := rfl

theorem splitKeepNl_eq_chunks (t : Str) : splitKeepNl t = chunksOfSegs (splitNl t) := by
  induction t with
  | nil => rfl
  | cons c cs ih =>
    by_cases h : c = '\n'
    · subst h
      have h1 : splitKeepNl ('\n' :: cs) = ['\n'] :: splitKeepNl cs := by simp [splitKeepNl]
      rw [h1, splitNl_cons_nl, ih]
      cases hcs : splitNl cs with
      | nil => exact absurd hcs (splitNl_ne_nil cs)
      | cons s ss => rw [chunksOfSegs_cons_cons]; rfl
    · cases hcs : splitNl cs with
      | nil => exact absurd hcs (splitNl_ne_nil cs)
      | cons s ss =>
        rw [splitNl_cons_of_ne c cs h s ss hcs]
        rw [hcs] at ih
        cases ss with
        | nil =>
          simp only [splitKeepNl, if_neg h, ih, chunksOfSegs]
          by_cases hs : s = []
          · subst hs; simp
          · simp [hs, List.isEmpty_iff]
        | cons b bs =>
          rw [chunksOfSegs_cons_cons] at ih
          simp only [splitKeepNl, if_neg h, ih, chunksOfSegs_cons_cons]
          rfl

theorem hasContent_nil : hasContent [] = false := rfl

theorem hasContent_append_newline (l : Str) : hasContent (l ++ ['\n']) = hasContent l := by
  simp [hasContent, List.any_append, isPySpace]

theorem pytextwrapIndent_eq_map (t pre : Str) :
    pytextwrapIndent t pre
      = joinNl ((splitNl t).map (fun l => if hasContent l then pre ++ l else l)) := by
  unfold pytextwrapIndent
  rw [splitKeepNl_eq_chunks]
  cases hss : splitNl t with
  | nil => exact absurd hss (splitNl_ne_nil t)
  | cons s₀ rest =>
    clear hss
    induction rest generalizing s₀ with
    | nil =>
      by_cases hs : s₀ = []
      · subst hs; simp [chunksOfSegs, joinNl, hasContent_nil]
      · simp only [chunksOfSegs, List.isEmpty_iff, if_neg hs, List.map_cons, List.map_nil,
          List.flatten, joinNl]
        simp
    | cons a as ih =>
      rw [chunksOfSegs_cons_cons]
      simp only [List.map_cons, List.flatten_cons]
      rw [ih a]
      rw [hasContent_append_newline]
      by_cases hc : hasContent s₀ = true
      · simp only [hc, if_true, joinNl_cons_cons]
        simp
      · simp only [Bool.not_eq_true] at hc
        simp only [hc, Bool.false_eq_true, if_false, joinNl_cons_cons]
        simp

theorem endsNl_append_cons_nl (x y : Str) :
    endsNl (x ++ '\n' :: y) = if y = [] then true else endsNl y := by
  simp only [endsNl]
  rw [List.getLast?_append_of_ne_nil x (List.cons_ne_nil '\n' y)]
  cases y with
  | nil => simp
  | cons b bs => rw [List.getLast?_cons_cons]; simp

theorem endsNl_joinNl_map (g : Str → Str) (hg0 : g [] = [])
    (hg : ∀ l, l ≠ [] → g l ≠ [] ∧ (g l).getLast? = l.getLast?) :
    ∀ ls : List Str, ls ≠ [] → endsNl (joinNl (ls.map g)) = endsNl (joinNl ls) := by
  intro ls
  induction ls with
  | nil => intro h; exact absurd rfl h
  | cons l ls ih =>
    intro _
    cases ls with
    | nil =>
      simp only [List.map_cons, List.map_nil, joinNl]
      by_cases hl : l = []
      · subst hl; rw [hg0]
      · simp [endsNl, (hg l hl).2]
    | cons a as =>
      simp only [List.map_cons, joinNl_cons_cons]
      rw [endsNl_append_cons_nl, endsNl_append_cons_nl]
      have hiff : joinNl (g a :: List.map g as) = [] ↔ joinNl (a :: as) = [] := by
        rw [joinNl_cons_eq_nil_iff, joinNl_cons_eq_nil_iff, List.map_eq_nil_iff]
        constructor
        · rintro ⟨hga, has⟩
          refine ⟨?_, has⟩
          by_contra hane
          exact (hg a hane).1 hga
        · rintro ⟨ha, has⟩
          exact ⟨ha ▸ hg0, has⟩
      by_cases hj : joinNl (a :: as) = []
      · rw [if_pos (hiff.mpr hj), if_pos hj]
      · rw [if_neg (fun hc => hj (hiff.mp hc)), if_neg hj]
        simpa using ih (by simp)

theorem endsNl_pytextwrapIndent (t pre : Str) :
    endsNl (pytextwrapIndent t pre) = endsNl t := by
  rw [pytextwrapIndent_eq_map]
  have hmap := endsNl_joinNl_map (fun l => if hasContent l then pre ++ l else l)
    (by simp [hasContent_nil])
    (by
      intro l hl
      by_cases hc : hasContent l = true
      · simp only [hc, if_true]
        exact ⟨by simp [hl], List.getLast?_append_of_ne_nil pre hl⟩
      · simp only [Bool.not_eq_true] at hc
        simp [hc, hl])
    (splitNl t) (splitNl_ne_nil t)
  rw [hmap, joinNl_splitNl]

theorem pytextwrapIndent_append_newline (u pre : Str) :
    pytextwrapIndent (u ++ ['\n']) pre = pytextwrapIndent u pre ++ ['\n'] := by
  rw [pytextwrapIndent_eq_map, pytextwrapIndent_eq_map, splitNl_append_newline,
    List.map_append]
  have h0 : List.map (fun l => if hasContent l then pre ++ l else l) [([] : Str)]
      = [([] : Str)] := by
    simp [hasContent_nil]
  rw [h0, joinNl_append_nil _ (by simp [splitNl_ne_nil u])]

theorem dedent_text_trailing (text : Str) (b i : Str) (n : Bool)
    (h : dedent_text text = .ok (b, i, n)) : n = endsNl text := by
  unfold dedent_text at h
  cases h1 : pyFirstLine text with
  | error e => rw [h1] at h; simp at h
  | ok old_first =>
    rw [h1] at h
    cases h2 : pyFirstLine (pydedent text) with
    | error e => rw [h2] at h; simp at h
    | ok new_first =>
      rw [h2] at h
      dsimp only at h
      split_ifs at h with hsuf
      simp only [Except.ok.injEq, Prod.mk.injEq] at h
      exact h.2.2.symm

/-! ### The margin computation of textwrap.dedent -/

theorem commonPre_prefix_left : ∀ a b : Str, commonPre a b <+: a
  | [], _ => by simp [commonPre]
  | _ :: _, [] => by simp [commonPre]
  | a :: as, b :: bs => by
    by_cases h : a = b
    · simp only [commonPre, if_pos h]
      exact (List.cons_prefix_cons).mpr ⟨rfl, commonPre_prefix_left as bs⟩
    · simp [commonPre, h]

theorem commonPre_prefix_right : ∀ a b : Str, commonPre a b <+: b
  | [], _ => by simp [commonPre]
  | _ :: _, [] => by simp [commonPre]
  | a :: as, b :: bs => by
    by_cases h : a = b
    · simp only [commonPre, if_pos h]
      exact (List.cons_prefix_cons).mpr ⟨h, commonPre_prefix_right as bs⟩
    · simp [commonPre, h]

theorem marginStep_prefix_left (m i : Str) : marginStep m i <+: m := by
  unfold marginStep
  split_ifs with h1 h2
  · exact List.prefix_refl m
  · exact List.isPrefixOf_iff_prefix.mp h2
  · exact commonPre_prefix_left m i

theorem marginStep_prefix_right (m i : Str) : marginStep m i <+: i := by
  unfold marginStep
  split_ifs with h1 h2
  · exact List.isPrefixOf_iff_prefix.mp h1
  · exact List.prefix_refl i
  · exact commonPre_prefix_right m i

theorem foldl_marginStep_prefixes (is : List Str) (i₀ : Str) :
    (is.foldl marginStep i₀) <+: i₀ ∧ ∀ x ∈ is, (is.foldl marginStep i₀) <+: x := by
  induction is generalizing i₀ with
  | nil => exact ⟨List.prefix_refl _, by simp⟩
  | cons a as ih =>
    have h1 := marginStep_prefix_left i₀ a
    have h2 := marginStep_prefix_right i₀ a
    obtain ⟨hl, hr⟩ := ih (marginStep i₀ a)
    refine ⟨hl.trans h1, ?_⟩
    intro x hx
    rcases List.mem_cons.mp hx with rfl | hx
    · exact hl.trans h2
    · exact hr x hx

/-! ### Blank, content and stripping lemmas -/

theorem isPySpace_of_isBlankChar (c : Char) (h : isBlankChar c = true) :
    isPySpace c = true := by
  simp only [isBlankChar, Bool.or_eq_true, beq_iff_eq] at h
  rcases h with rfl | rfl <;> simp [isPySpace]

theorem hasContent_ne_nil (l : Str) (h : hasContent l = true) : l ≠ [] := by
  intro he
  subst he
  simp [hasContent] at h

theorem normalizeBlankLine_of_hasContent (l : Str) (h : hasContent l = true) :
    normalizeBlankLine l = l := by
  unfold normalizeBlankLine
  rw [if_neg]
  intro hws
  simp only [wsOnly, Bool.and_eq_true] at hws
  simp only [hasContent, List.any_eq_true, Bool.not_eq_true'] at h
  obtain ⟨c, hc, hcs⟩ := h
  have := List.all_eq_true.mp hws.2 c hc
  exact absurd (isPySpace_of_isBlankChar c this) (by simp [hcs])

theorem normalizeBlankLine_nil : normalizeBlankLine [] = [] := rfl

theorem normalizeBlankLine_suffix (l : Str) : normalizeBlankLine l <:+ l := by
  unfold normalizeBlankLine
  split
  · exact List.nil_suffix
  · exact List.suffix_refl l

theorem isContentLine_of_hasContent (l : Str) (h : hasContent l = true) :
    isContentLine l = true := by
  unfold isContentLine
  cases hd : l.dropWhile isBlankChar with
  | cons c t => rfl
  | nil =>
    exfalso
    have hsplit := List.takeWhile_append_dropWhile (p := isBlankChar) (l := l)
    rw [hd, List.append_nil] at hsplit
    simp only [hasContent, List.any_eq_true, Bool.not_eq_true'] at h
    obtain ⟨c, hc, hcs⟩ := h
    rw [← hsplit] at hc
    have := List.mem_takeWhile_imp hc
    exact absurd (isPySpace_of_isBlankChar c this) (by simp [hcs])

theorem isContentLine_nil : isContentLine [] = false := rfl

theorem hasContent_drop (l : Str) (k : Nat) (hk : k ≤ (lineIndent l).length)
    (h : hasContent l = true) : hasContent (l.drop k) = true := by
  have hk' : k ≤ (l.takeWhile isBlankChar).length := hk
  have htake : (l.takeWhile isBlankChar).any (fun c => !isPySpace c) = false := by
    rw [List.any_eq_false]
    intro c hc
    have := List.mem_takeWhile_imp hc
    simp [isPySpace_of_isBlankChar c this]
  have hdw : (l.dropWhile isBlankChar).any (fun c => !isPySpace c) = true := by
    unfold hasContent at h
    rw [← List.takeWhile_append_dropWhile (p := isBlankChar) (l := l),
      List.any_append, htake, Bool.false_or] at h
    exact h
  have hdropeq : l.drop k = (l.takeWhile isBlankChar).drop k ++ l.dropWhile isBlankChar := by
    conv_lhs => rw [← List.takeWhile_append_dropWhile (p := isBlankChar) (l := l)]
    rw [List.drop_append_of_le_length hk']
  unfold hasContent
  rw [hdropeq, List.any_append, hdw]
  simp

theorem lineIndent_prefix_self (l : Str) : lineIndent l <+: l :=
  List.takeWhile_prefix isBlankChar

theorem stripMargin_nil_left (l : Str) : stripMargin [] l = l := by
  simp [stripMargin, List.isPrefixOf]

theorem stripMargin_eq_drop (m l : Str) (h : m <+: l) :
    stripMargin m l = l.drop m.length := by
  unfold stripMargin
  rw [if_pos (List.isPrefixOf_iff_prefix.mpr h)]

theorem stripMargin_of_nil (m : Str) : stripMargin m [] = [] := by
  unfold stripMargin
  split_ifs with hp
  · simp
  · rfl

theorem stripMargin_suffix (m l : Str) : stripMargin m l <:+ l := by
  unfold stripMargin
  split
  · exact List.drop_suffix m.length l
  · exact List.suffix_refl l

theorem append_drop_of_prefix (m l : Str) (h : m <+: l) :
    m ++ l.drop m.length = l := by
  obtain ⟨t, rfl⟩ := h
  rw [List.drop_left]

theorem take_length_of_prefix (m l : Str) (h : m <+: l) :
    l.take m.length = m := by
  obtain ⟨t, rfl⟩ := h
  exact List.take_left m t

/-! ### The defensive assert of dedent_text never fires -/

theorem dedentSegs_ne_nil (t : Str) : dedentSegs t ≠ [] := by
  unfold dedentSegs
  simp [splitNl_ne_nil]

theorem mem_dedentSegs_no_newline (t : Str) (l : Str) (hl : l ∈ dedentSegs t) :
    '\n' ∉ l := by
  unfold dedentSegs at hl
  obtain ⟨x, hx, rfl⟩ := List.mem_map.mp hl
  intro hmem
  exact not_newline_mem_splitNl t x hx ((normalizeBlankLine_suffix x).subset hmem)

theorem pyFirstLine_error_eq (t : Str) (e : PyErr) (h : pyFirstLine t = .error e) :
    e = .indexError := by
  unfold pyFirstLine at h
  cases hs : pySplitlines t with
  | nil => rw [hs] at h; exact (Except.error.inj h).symm
  | cons l ls => rw [hs] at h; simp at h

theorem pydedent_headI_suffix (t : Str) :
    (splitNl (pydedent t)).headI <:+ (splitNl t).headI := by
  cases hss : splitNl t with
  | nil => exact absurd hss (splitNl_ne_nil t)
  | cons s₀ ss =>
    have hsegs : dedentSegs t = normalizeBlankLine s₀ :: ss.map normalizeBlankLine := by
      unfold dedentSegs
      rw [hss]
      rfl
    have hnonl : ∀ l ∈ dedentSegs t, '\n' ∉ l := mem_dedentSegs_no_newline t
    unfold pydedent
    cases hind : dedentIndents t with
    | nil =>
      rw [splitNl_joinNl (dedentSegs t) (dedentSegs_ne_nil t) hnonl, hsegs]
      simpa using normalizeBlankLine_suffix s₀
    | cons i is =>
      dsimp only
      by_cases hm : (is.foldl marginStep i).isEmpty
      · rw [if_pos hm]
        rw [splitNl_joinNl (dedentSegs t) (dedentSegs_ne_nil t) hnonl, hsegs]
        simpa using normalizeBlankLine_suffix s₀
      · rw [if_neg hm]
        have hmapne : (dedentSegs t).map (stripMargin (is.foldl marginStep i)) ≠ [] := by
          simp [dedentSegs, splitNl_ne_nil t]
        have hmapnonl : ∀ l ∈ (dedentSegs t).map (stripMargin (is.foldl marginStep i)),
            '\n' ∉ l := by
          intro l hl
          obtain ⟨x, hx, rfl⟩ := List.mem_map.mp hl
          intro hmem
          exact hnonl x hx ((stripMargin_suffix _ x).subset hmem)
        rw [splitNl_joinNl _ hmapne hmapnonl, hsegs]
        simp only [List.map_cons, List.headI_cons]
        exact (stripMargin_suffix _ _).trans (normalizeBlankLine_suffix s₀)

/-- C8: the defensive assertion of dedent_text is unreachable — for
every input, the dedented first line is a suffix of the original first
line, so dedent_text never fails with the assertion error (it can only
fail with an IndexError on texts without lines before or after
dedenting). -/
theorem dedent_text_assert_unreachable (text : Str) :
    dedent_text text ≠ Except.error PyErr.assertionError := by
  unfold dedent_text
  cases h1 : pyFirstLine text with
  | error e =>
    intro hc
    have := pyFirstLine_error_eq text e h1
    subst this
    exact PyErr.noConfusion (Except.error.inj hc)
  | ok old_first =>
    cases h2 : pyFirstLine (pydedent text) with
    | error e =>
      intro hc
      have := pyFirstLine_error_eq (pydedent text) e h2
      subst this
      exact PyErr.noConfusion (Except.error.inj hc)
    | ok new_first =>
      have htne : text ≠ [] := pyFirstLine_ok_ne_nil text old_first h1
      have hpne : pydedent text ≠ [] := pyFirstLine_ok_ne_nil _ new_first h2
      have hold : old_first = (splitNl text).headI := by
        rw [pyFirstLine_of_ne_nil text htne] at h1
        exact (Except.ok.inj h1).symm
      have hnew : new_first = (splitNl (pydedent text)).headI := by
        rw [pyFirstLine_of_ne_nil _ hpne] at h2
        exact (Except.ok.inj h2).symm
      have hsuf : new_first.isSuffixOf old_first = true := by
        rw [List.isSuffixOf_iff_suffix, hold, hnew]
        exact pydedent_headI_suffix text
      dsimp only
      rw [if_pos hsuf]
      simp

/-! ### Round trip of dedent_text and indent_text on solid texts

A text is called solid here when every one of its lines is either
completely empty or contains a non-whitespace character, and its first
line is of the latter kind.  These are exactly the texts untouched by
the whitespace-only normalization of textwrap.dedent and fully
restored by the blank-skipping predicate of textwrap.indent. -/

theorem dedentSegs_eq_of_solid (text : Str)
    (h1 : ∀ l ∈ splitNl text, l = [] ∨ hasContent l = true) :
    dedentSegs text = splitNl text := by
  unfold dedentSegs
  rw [List.map_congr_left (g := id), List.map_id]
  intro l hl
  rcases h1 l hl with rfl | hc
  · rfl
  · exact normalizeBlankLine_of_hasContent l hc

theorem dedentIndents_eq_of_solid (text : Str)
    (h1 : ∀ l ∈ splitNl text, l = [] ∨ hasContent l = true) :
    dedentIndents text = ((splitNl text).filter hasContent).map lineIndent := by
  unfold dedentIndents
  rw [dedentSegs_eq_of_solid text h1]
  congr 1
  apply List.filter_congr
  intro l hl
  rcases h1 l hl with rfl | hc
  · rfl
  · rw [isContentLine_of_hasContent l hc, hc]

theorem dedentMargin_prefix_of_solid (text : Str)
    (h1 : ∀ l ∈ splitNl text, l = [] ∨ hasContent l = true)
    (h2 : hasContent ((splitNl text).headI) = true) :
    ∀ l ∈ splitNl text, hasContent l = true → dedentMargin text <+: lineIndent l := by
  intro l hl hc
  cases hss : splitNl text with
  | nil => exact absurd hss (splitNl_ne_nil text)
  | cons s₀ rest =>
    rw [hss] at h2 hl
    simp only [List.headI_cons] at h2
    have hfilter : (splitNl text).filter hasContent = s₀ :: rest.filter hasContent := by
      rw [hss, List.filter_cons_of_pos h2]
    have hind : dedentIndents text
        = lineIndent s₀ :: (rest.filter hasContent).map lineIndent := by
      rw [dedentIndents_eq_of_solid text h1, hfilter, List.map_cons]
    have hmdef : dedentMargin text
        = ((rest.filter hasContent).map lineIndent).foldl marginStep (lineIndent s₀) := by
      unfold dedentMargin
      rw [hind]
    obtain ⟨hleft, hright⟩ :=
      foldl_marginStep_prefixes ((rest.filter hasContent).map lineIndent) (lineIndent s₀)
    rcases List.mem_cons.mp hl with rfl | hl
    · rw [hmdef]; exact hleft
    · rw [hmdef]
      exact hright (lineIndent l)
        (List.mem_map_of_mem lineIndent (List.mem_filter.mpr ⟨hl, hc⟩))

theorem pydedent_eq_strip_of_solid (text : Str)
    (h1 : ∀ l ∈ splitNl text, l = [] ∨ hasContent l = true)
    (h2 : hasContent ((splitNl text).headI) = true) :
    pydedent text = joinNl ((splitNl text).map (stripMargin (dedentMargin text))) := by
  unfold pydedent
  rw [dedentSegs_eq_of_solid text h1]
  cases hind : dedentIndents text with
  | nil =>
    exfalso
    cases hss : splitNl text with
    | nil => exact absurd hss (splitNl_ne_nil text)
    | cons s₀ rest =>
      rw [hss] at h2
      simp only [List.headI_cons] at h2
      rw [dedentIndents_eq_of_solid text h1, hss, List.filter_cons_of_pos h2] at hind
      simp at hind
  | cons i is =>
    dsimp only
    have hmdef : dedentMargin text = is.foldl marginStep i := by
      unfold dedentMargin
      rw [hind]
    by_cases hm : (is.foldl marginStep i).isEmpty
    · rw [if_pos hm]
      have hmnil : dedentMargin text = [] := by
        rw [hmdef]
        exact List.isEmpty_iff.mp hm
      rw [hmnil]
      congr 1
      rw [List.map_congr_left (g := id), List.map_id]
      intro l _
      exact stripMargin_nil_left l
    · rw [if_neg hm, hmdef]

theorem splitNl_strip_of_eq (text : Str) (m : Str)
    (h : pydedent text = joinNl ((splitNl text).map (stripMargin m))) :
    splitNl (pydedent text) = (splitNl text).map (stripMargin m) := by
  rw [h]
  apply splitNl_joinNl
  · simp [splitNl_ne_nil text]
  · intro l hl
    obtain ⟨x, hx, rfl⟩ := List.mem_map.mp hl
    intro hmem
    exact not_newline_mem_splitNl text x hx ((stripMargin_suffix m x).subset hmem)

theorem solid_strip_restore (m l : Str)
    (hsolid : l = [] ∨ hasContent l = true)
    (hpre : hasContent l = true → m <+: lineIndent l) :
    (if hasContent (stripMargin m l) then m ++ stripMargin m l else stripMargin m l)
      = l := by
  rcases hsolid with rfl | hc
  · rw [stripMargin_of_nil, hasContent_nil]
    simp
  · have hpre' := hpre hc
    have hml : m <+: l := hpre'.trans (lineIndent_prefix_self l)
    rw [stripMargin_eq_drop m l hml]
    rw [hasContent_drop l m.length hpre'.length_le hc]
    simp only [if_true]
    exact append_drop_of_prefix m l hml

theorem headI_ne_nil_imp_ne_nil (text : Str)
    (h2 : hasContent ((splitNl text).headI) = true) : text ≠ [] := by
  intro he
  rw [he, splitNl_nil] at h2
  simp [hasContent] at h2

theorem dedent_text_of_solid (text : Str)
    (h1 : ∀ l ∈ splitNl text, l = [] ∨ hasContent l = true)
    (h2 : hasContent ((splitNl text).headI) = true) :
    dedent_text text = .ok (pydedent text, dedentMargin text, endsNl text) := by
  cases hss : splitNl text with
  | nil => exact absurd hss (splitNl_ne_nil text)
  | cons s₀ rest =>
    have h2' : hasContent s₀ = true := by rw [hss] at h2; simpa using h2
    have htne : text ≠ [] := headI_ne_nil_imp_ne_nil text h2
    have hstrip := pydedent_eq_strip_of_solid text h1 h2
    have hsplitnew := splitNl_strip_of_eq text (dedentMargin text) hstrip
    have hpre : dedentMargin text <+: lineIndent s₀ :=
      dedentMargin_prefix_of_solid text h1 h2 s₀ (by rw [hss]; exact List.mem_cons_self s₀ rest) h2'
    have hml : dedentMargin text <+: s₀ := hpre.trans (lineIndent_prefix_self s₀)
    have hstrips₀ : stripMargin (dedentMargin text) s₀ = s₀.drop (dedentMargin text).length :=
      stripMargin_eq_drop _ s₀ hml
    have hcnew : hasContent (stripMargin (dedentMargin text) s₀) = true := by
      rw [hstrips₀]
      exact hasContent_drop s₀ _ hpre.length_le h2'
    have hheadnew : (splitNl (pydedent text)).headI = stripMargin (dedentMargin text) s₀ := by
      rw [hsplitnew, hss]
      rfl
    have hpne : pydedent text ≠ [] := by
      intro he
      have hcontra := hsplitnew
      rw [he, splitNl_nil, hss, List.map_cons] at hcontra
      have : ([] : Str) = stripMargin (dedentMargin text) s₀ := (List.cons.inj hcontra).1
      exact hasContent_ne_nil _ hcnew this.symm
    unfold dedent_text
    rw [pyFirstLine_of_ne_nil text htne, pyFirstLine_of_ne_nil _ hpne]
    dsimp only
    have hsuf : ((splitNl (pydedent text)).headI).isSuffixOf ((splitNl text).headI) = true := by
      rw [List.isSuffixOf_iff_suffix]
      exact pydedent_headI_suffix text
    rw [if_pos hsuf]
    have hlen : ((splitNl text).headI).length - ((splitNl (pydedent text)).headI).length
        = (dedentMargin text).length := by
      rw [hheadnew, hstrips₀, hss, List.headI_cons, List.length_drop]
      have := hml.length_le
      omega
    have htake : ((splitNl text).headI).take
        (((splitNl text).headI).length - ((splitNl (pydedent text)).headI).length)
        = dedentMargin text := by
      rw [hlen, hss, List.headI_cons]
      exact take_length_of_prefix _ s₀ hml
    rw [htake]

theorem indent_text_undo_of_solid (text : Str)
    (h1 : ∀ l ∈ splitNl text, l = [] ∨ hasContent l = true)
    (h2 : hasContent ((splitNl text).headI) = true) :
    indent_text (pydedent text) (dedentMargin text) (endsNl text) = text := by
  have hstrip := pydedent_eq_strip_of_solid text h1 h2
  have hsplitnew := splitNl_strip_of_eq text (dedentMargin text) hstrip
  have hpy : pytextwrapIndent (pydedent text) (dedentMargin text) = text := by
    rw [pytextwrapIndent_eq_map, hsplitnew, List.map_map]
    have hid : (splitNl text).map
        ((fun l => if hasContent l then dedentMargin text ++ l else l)
          ∘ stripMargin (dedentMargin text))
        = (splitNl text).map id := by
      apply List.map_congr_left
      intro l hl
      exact solid_strip_restore (dedentMargin text) l (h1 l hl)
        (fun hc => dedentMargin_prefix_of_solid text h1 h2 l hl hc)
    rw [hid, List.map_id, joinNl_splitNl]
  unfold indent_text
  rw [hpy]
  cases hnl : endsNl text <;> simp [hnl]

/-! ### Negative indexing and the error classification -/

theorem pyGetNeg_of_get? (ls : List Str) (k : Nat) (x : Str) (hk : 0 < k)
    (hle : k ≤ ls.length) (h : ls.get? (ls.length - k) = some x) :
    pyGetNeg ls k = .ok x := by
  unfold pyGetNeg
  rw [if_pos ⟨hk, hle⟩, h]

theorem pyGetNeg_last (ls : List Str) (x : Str) (h : ls.getLast? = some x) :
    pyGetNeg ls 1 = .ok x := by
  have hne : ls ≠ [] := by intro he; rw [he] at h; simp at h
  apply pyGetNeg_of_get? ls 1 x (by omega) (by
    have := List.length_pos.mpr hne
    omega)
  rw [List.get?_eq_getElem?, ← List.getLast?_eq_getElem?]
  exact h

theorem newline_mem_two_le (text : Str) (h : '\n' ∈ text) :
    2 ≤ (splitNl text).length := by
  induction text with
  | nil => simp at h
  | cons c cs ih =>
    by_cases hc : c = '\n'
    · subst hc
      rw [splitNl_cons_nl]
      have := List.length_pos.mpr (splitNl_ne_nil cs)
      simp only [List.length_cons]
      omega
    · have hmem : '\n' ∈ cs := by
        rcases List.mem_cons.mp h with h | h
        · exact absurd h.symm hc
        · exact h
      cases hcs : splitNl cs with
      | nil => exact absurd hcs (splitNl_ne_nil cs)
      | cons s ss =>
        rw [splitNl_cons_of_ne c cs hc s ss hcs]
        have := ih hmem
        rw [hcs] at this
        simpa using this

theorem foldl_yapfError_general (msgs : List Str) (st : YapfErrState) :
    (msgs.foldl yapfError st).errors = st.errors ++ msgs ∧
    ((msgs.foldl yapfError st).status
      = if msgs.isEmpty then st.status
        else some (pluginTag ++ joinWith ", ".data (st.errors ++ msgs))) := by
  induction msgs generalizing st with
  | nil => simp
  | cons a as ih =>
    obtain ⟨he, hs⟩ := ih (yapfError st a)
    rw [List.foldl_cons]
    constructor
    · rw [he]
      simp [yapfError]
    · rw [hs]
      cases as with
      | nil => simp [yapfError]
      | cons b bs => simp [yapfError, List.append_assoc]

/-! ### Claim theorems -/

/-- C3: no document mutation on error.  Whenever Yapf.format returns
normally, if byte-encoding failed or the formatter exit code was
neither 0 nor 2 then no replacement was produced and an error was
surfaced, and conversely a replacement is produced only with encoding
intact and exit code 0 or 2 (abnormal returns produce no replacement
at all). -/
theorem format_no_document_mutation (selText encoding : Str) (encodeErr : Option Str)
    (rc : Int) (outD errD : Str) (res : FormatResult)
    (hres : format selText encoding encodeErr rc outD errD = .ok res) :
    ((encodeErr.isSome = true ∨ (rc ≠ 0 ∧ rc ≠ 2)) →
      res.replaced = none ∧ res.surfaced ≠ []) ∧
    (res.replaced.isSome = true → encodeErr = none ∧ (rc = 0 ∨ rc = 2)) := by
  unfold format at hres
  cases hded : dedent_text selText with
  | error e => rw [hded] at hres; simp at hres
  | ok triple =>
    obtain ⟨ded, ind, nl⟩ := triple
    rw [hded] at hres
    dsimp only at hres
    cases encodeErr with
    | some e =>
      simp only [Except.ok.injEq] at hres
      subst hres
      constructor
      · intro _
        exact ⟨rfl, by simp⟩
      · intro hsome
        simp at hsome
    | none =>
      dsimp only at hres
      by_cases hrc : rc ≠ 0 ∧ rc ≠ 2
      · rw [if_pos hrc] at hres
        cases hfe : formatErrorMessage errD with
        | error e => rw [hfe] at hres; simp at hres
        | ok msg =>
          rw [hfe] at hres
          simp only [Except.ok.injEq] at hres
          subst hres
          constructor
          · intro _
            exact ⟨rfl, by simp⟩
          · intro hsome
            simp at hsome
      · rw [if_neg hrc] at hres
        simp only [Except.ok.injEq] at hres
        subst hres
        constructor
        · rintro (hs | hrc2)
          · simp at hs
          · exact absurd hrc2 hrc
        · intro _
          refine ⟨rfl, ?_⟩
          push_neg at hrc
          by_cases h0 : rc = 0
          · exact Or.inl h0
          · exact Or.inr (hrc h0)

/-- C3 witness: a run whose byte-encoding fails surfaces the encoding
error and replaces nothing. -/
theorem format_no_document_mutation_witness :
    FormatResult.replaced ⟨none, [unicodeErrorMessage "boom".data "utf-8".data]⟩ = none ∧
    FormatResult.surfaced ⟨none, [unicodeErrorMessage "boom".data "utf-8".data]⟩ ≠ [] :=
  (format_no_document_mutation "x=1\n".data "utf-8".data (some "boom".data) 0 [] []
    ⟨none, [unicodeErrorMessage "boom".data "utf-8".data]⟩ (by decide)).1 (Or.inl rfl)

/-- C4 counterexample: on the empty text, dedent_text raises an
IndexError instead of returning successfully with an empty indent
prefix as the claim states. -/
theorem dedent_text_empty_counterexample :
    dedent_text ([] : Str) = .error PyErr.indexError := by decide

/-- C4 (corrected): on all-blank texts, dedent_text raises an
IndexError when the text is empty or is whitespace without any
newline; otherwise it returns successfully with hadTrailingNewline
reflecting the literal trailing character but with indentPrefix equal
to the whole first line, not the empty prefix the claim states. -/
theorem dedent_text_all_blank (text : Str)
    (hb : ∀ l ∈ splitNl text, l.all isBlankChar = true) :
    ('\n' ∈ text →
      dedent_text text
        = .ok (joinNl ((splitNl text).map (fun _ => ([] : Str))),
               (splitNl text).headI, endsNl text)) ∧
    ('\n' ∉ text → dedent_text text = .error PyErr.indexError) := by
  constructor
  · intro hmem
    have hsegs : dedentSegs text = (splitNl text).map (fun _ => ([] : Str)) := by
      unfold dedentSegs
      apply List.map_congr_left
      intro l hl
      cases l with
      | nil => rfl
      | cons c cs =>
        unfold normalizeBlankLine wsOnly
        rw [if_pos]
        simp [hb (c :: cs) hl]
    have hind : dedentIndents text = [] := by
      unfold dedentIndents
      rw [hsegs]
      have hfil : ((splitNl text).map (fun _ => ([] : Str))).filter isContentLine = [] := by
        rw [List.filter_eq_nil_iff]
        intro a ha
        obtain ⟨x, _, rfl⟩ := List.mem_map.mp ha
        simp [isContentLine_nil]
      rw [hfil]
      rfl
    have hpyd : pydedent text = joinNl ((splitNl text).map (fun _ => ([] : Str))) := by
      unfold pydedent
      rw [hind]
      dsimp only
      rw [hsegs]
    have hlen2 := newline_mem_two_le text hmem
    obtain ⟨s₀, tail, hss⟩ : ∃ s₀ tail, splitNl text = s₀ :: tail := by
      cases hs : splitNl text with
      | nil => exact absurd hs (splitNl_ne_nil text)
      | cons a t => exact ⟨a, t, rfl⟩
    obtain ⟨s₁, rest, htail⟩ : ∃ s₁ rest, tail = s₁ :: rest := by
      cases tail with
      | nil => rw [hss] at hlen2; simp at hlen2
      | cons a t => exact ⟨a, t, rfl⟩
    have htne : text ≠ [] := by
      intro he
      subst he
      simp at hmem
    have hpydsplit : splitNl (pydedent text)
        = (splitNl text).map (fun _ => ([] : Str)) := by
      rw [hpyd]
      apply splitNl_joinNl
      · simp [splitNl_ne_nil text]
      · intro l hl
        obtain ⟨x, _, rfl⟩ := List.mem_map.mp hl
        simp
    have hpne : pydedent text ≠ [] := by
      intro he
      rw [he, splitNl_nil, hss, htail] at hpydsplit
      simp at hpydsplit
    unfold dedent_text
    rw [pyFirstLine_of_ne_nil text htne, pyFirstLine_of_ne_nil _ hpne]
    dsimp only
    rw [hpydsplit, hss, htail]
    simp only [List.map_cons, List.headI_cons]
    rw [if_pos (by rw [List.isSuffixOf_iff_suffix]; exact List.nil_suffix)]
    rw [hpyd, hss, htail]
    simp

  · intro hnmem
    by_cases he : text = []
    · subst he
      decide
    · have hsplit1 : splitNl text = [text] := splitNl_of_no_newline text hnmem
      have hwsonly : wsOnly text = true := by
        unfold wsOnly
        have := hb text (by rw [hsplit1]; exact List.mem_cons_self _ _)
        simp [this, he]
      have hpyd : pydedent text = [] := by
        unfold pydedent
        have hsegs : dedentSegs text = [[]] := by
          unfold dedentSegs
          rw [hsplit1]
          simp [normalizeBlankLine, hwsonly]
        have hind : dedentIndents text = [] := by
          unfold dedentIndents
          rw [hsegs]
          rfl
        rw [hind]
        dsimp only
        rw [hsegs]
        rfl
      have hfl : pyFirstLine text = .ok text := by
        rw [pyFirstLine_of_ne_nil text he, hsplit1]
        rfl
      unfold dedent_text
      rw [hfl, hpyd]
      dsimp only
      rfl

/-- C4 witness: the two-blank-character line with trailing newline
dedents successfully, with the whole first line as indent prefix and
the trailing flag set. -/
theorem dedent_text_all_blank_witness :
    dedent_text "  \n".data
      = .ok (joinNl ((splitNl "  \n".data).map (fun _ => ([] : Str))),
             (splitNl "  \n".data).headI, endsNl "  \n".data) :=
  (dedent_text_all_blank "  \n".data (by decide)).1 (by decide)

/-- C6: trailing-newline preservation.  Dedenting a selection without
a trailing newline records the flag false; reindenting formatter
output that ends in exactly one newline under that flag strips exactly
that one newline, so the result again lacks a trailing newline. -/
theorem trailing_newline_preservation (text t ind b : Str) (n : Bool)
    (hded : dedent_text text = .ok (b, ind, n))
    (hnot : endsNl text = false)
    (hone : endsNl t = true)
    (hone' : endsNl t.dropLast = false) :
    n = false ∧
    indent_text t ind n = (pytextwrapIndent t ind).dropLast ∧
    endsNl (indent_text t ind n) = false := by
  have hn : n = false := by rw [dedent_text_trailing text b ind n hded, hnot]
  subst hn
  have hpyends : endsNl (pytextwrapIndent t ind) = true := by
    rw [endsNl_pytextwrapIndent, hone]
  have heq : indent_text t ind false = (pytextwrapIndent t ind).dropLast := by
    unfold indent_text
    rw [hpyends]
    simp
  refine ⟨rfl, heq, ?_⟩
  rw [heq]
  have ht := endsNl_eq_dropLast_concat t hone
  have hsplit : pytextwrapIndent t ind = pytextwrapIndent t.dropLast ind ++ ['\n'] := by
    conv_lhs => rw [ht]
    exact pytextwrapIndent_append_newline t.dropLast ind
  rw [hsplit, List.dropLast_concat, endsNl_pytextwrapIndent, hone']

/-- C6 witness: dedenting a one-line selection without trailing
newline and reindenting formatter output with one trailing newline. -/
theorem trailing_newline_preservation_witness :
    indent_text "x = 1\n".data [] false = (pytextwrapIndent "x = 1\n".data []).dropLast ∧
    endsNl (indent_text "x = 1\n".data [] false) = false :=
  (trailing_newline_preservation "x=1".data "x = 1\n".data [] "x=1".data false
    (by decide) (by decide) (by decide) (by decide)).2

/-- C9: error accumulation.  The orchestrator starts with an empty
error list and a cleared status; each error call appends its message
and rewrites the status with all accumulated messages joined by a
comma after the plugin tag, so after any sequence of errors the
status shows all of them. -/
theorem yapf_error_accumulation (msgs : List Str) (m : Str) :
    yapfInit.errors = [] ∧ yapfInit.status = none ∧
    (∀ st : YapfErrState, ∀ msg : Str,
      (yapfError st msg).errors = st.errors ++ [msg] ∧
      (yapfError st msg).status
        = some (pluginTag ++ joinWith ", ".data (st.errors ++ [msg]))) ∧
    ((msgs ++ [m]).foldl yapfError yapfInit).errors = msgs ++ [m] ∧
    ((msgs ++ [m]).foldl yapfError yapfInit).status
      = some (pluginTag ++ joinWith ", ".data (msgs ++ [m])) := by
  obtain ⟨he, hs⟩ := foldl_yapfError_general (msgs ++ [m]) yapfInit
  refine ⟨rfl, rfl, ?_, ?_, ?_⟩
  · intro st msg
    exact ⟨by simp [yapfError], by simp [yapfError]⟩
  · rw [he]
    rfl
  · rw [hs, if_neg (by simp)]
    rfl

/-- C10: indent_text never appends a trailing newline — when its input
lacks one the output lacks one too, for every indent and flag — and
when it strips, it removes exactly one character from the end of the
reindented text. -/
theorem indent_text_never_appends (t ind : Str) (nl : Bool) :
    (endsNl t = false → endsNl (indent_text t ind nl) = false) ∧
    (endsNl (pytextwrapIndent t ind) = true →
      indent_text t ind false = (pytextwrapIndent t ind).dropLast ∧
      (indent_text t ind false).length + 1 = (pytextwrapIndent t ind).length) := by
  constructor
  · intro h
    have hcond : (!nl && endsNl (pytextwrapIndent t ind)) = false := by
      rw [endsNl_pytextwrapIndent, h, Bool.and_false]
    unfold indent_text
    rw [hcond]
    simp only [Bool.false_eq_true, if_false]
    rw [endsNl_pytextwrapIndent, h]
  · intro h
    have heq : indent_text t ind false = (pytextwrapIndent t ind).dropLast := by
      unfold indent_text
      rw [h]
      simp
    refine ⟨heq, ?_⟩
    rw [heq, List.length_dropLast]
    have hne : pytextwrapIndent t ind ≠ [] := by
      intro he
      rw [he] at h
      simp [endsNl] at h
    have := List.length_pos.mpr hne
    omega

/-- C10 witness: indenting a newline-less body adds no newline, and
stripping at a concrete body removes the one trailing newline. -/
theorem indent_text_never_appends_witness :
    endsNl (indent_text "a".data "  ".data true) = false ∧
    indent_text "a\n".data "  ".data false
      = (pytextwrapIndent "a\n".data "  ".data).dropLast :=
  ⟨(indent_text_never_appends "a".data "  ".data true).1 (by decide),
   ((indent_text_never_appends "a\n".data "  ".data false).2 (by decide)).1⟩

/-- C2: formatter-error message classification.  For stderr text whose
last line exists: if it mentions InternalError the surfaced message is
exactly that line; otherwise, when there are at least four lines and
the 4th-from-last contains the token line at index i, the surfaced
message is the last line followed in parentheses by the capitalized
tail of that line from i on. -/
theorem formatErrorMessage_classification (err lastL : Str)
    (h1 : (pySplitlines err).getLast? = some lastL) :
    (containsSub lastL "InternalError".data = true →
      formatErrorMessage err = .ok lastL) ∧
    (containsSub lastL "InternalError".data = false →
      ∀ loc : Str, ∀ i : Nat,
        4 ≤ (pySplitlines err).length →
        (pySplitlines err).get? ((pySplitlines err).length - 4) = some loc →
        findSub "line".data loc = some i →
        formatErrorMessage err
          = .ok (lastL ++ " (".data ++ pyCapitalize (loc.drop i) ++ ")".data)) := by
  have hGet1 : pyGetNeg (pySplitlines err) 1 = .ok lastL := pyGetNeg_last _ lastL h1
  constructor
  · intro hint
    unfold formatErrorMessage
    rw [hGet1]
    dsimp only
    rw [if_pos hint]
  · intro hnint loc i hlen hloc hfind
    unfold formatErrorMessage
    rw [hGet1]
    dsimp only
    rw [if_neg (by simp [hnint])]
    rw [pyGetNeg_of_get? _ 4 loc (by omega) hlen hloc]
    dsimp only
    have hfd : pyFind loc "line".data = (i : Int) := by
      unfold pyFind
      rw [hfind]
    rw [hfd]
    have hsl : pySliceFrom loc ((i : Nat) : Int) = loc.drop i := by
      unfold pySliceFrom
      rw [if_pos (Int.ofNat_nonneg i)]
      simp
    rw [hsl]

/-- C2 witness: Scenario B — a four-line stderr whose last line is the
syntax-error summary and whose 4th-from-last line carries the location
hint yields exactly the claimed surfaced message. -/
theorem formatErrorMessage_classification_witness :
    formatErrorMessage scenarioBStderr
      = .ok "SyntaxError: invalid syntax (Line 3, column 5)".data := by
  have h := (formatErrorMessage_classification scenarioBStderr
      "SyntaxError: invalid syntax".data (by decide)).2 (by decide)
      "  File \"pasted\", line 3, column 5".data 17 (by decide) (by decide) (by decide)
  rw [h]
  decide

/-- C1 counterexample: the round-trip law fails as universally stated.
The text consisting of two lines indented by four spaces around a
whitespace-only line has uniform leading indentation on its non-blank
lines, yet dedenting normalizes the whitespace-only line to empty and
reindenting does not restore it, so the reconstruction differs from
the original text. -/
theorem dedent_indent_roundtrip_counterexample :
    uniformIndentOnNonBlank "    ".data "    a\n  \n    b\n".data = true ∧
    dedent_text "    a\n  \n    b\n".data = .ok ("a\n\nb\n".data, "    ".data, true) ∧
    indent_text "a\n\nb\n".data "    ".data true ≠ "    a\n  \n    b\n".data := by
  refine ⟨by decide, by decide, by decide⟩

/-- C1 (corrected): the round trip indent_text after dedent_text
reconstructs the original text exactly for every text whose first
line contains a non-whitespace character and whose every line is
either completely empty or contains a non-whitespace character; texts
with whitespace-only lines are excluded because dedent normalizes
such lines to empty and reindent leaves blank lines unprefixed. -/
theorem dedent_indent_roundtrip (text : Str)
    (h1 : ∀ l ∈ splitNl text, l = [] ∨ hasContent l = true)
    (h2 : hasContent ((splitNl text).headI) = true) :
    Except.map (fun r => indent_text r.1 r.2.1 r.2.2) (dedent_text text) = .ok text := by
  rw [dedent_text_of_solid text h1 h2]
  simp only [Except.map]
  rw [indent_text_undo_of_solid text h1 h2]

/-- C1 witness: the round trip at a concrete two-line indented text
with one interior empty line and no trailing newline. -/
theorem dedent_indent_roundtrip_witness :
    Except.map (fun r => indent_text r.1 r.2.1 r.2.2) (dedent_text "  a\n\n  b".data)
      = .ok "  a\n\n  b".data :=
  dedent_indent_roundtrip "  a\n\n  b".data (by decide) (by decide)

/-- C5 counterexample: indent_text does not prefix blank lines.  On
the body with an interior empty line, the reindented result leaves
that line empty instead of prefixing it with the four spaces the
claim requires. -/
theorem indent_text_blank_counterexample :
    indent_text "x\n\ny\n".data "    ".data true = "    x\n\n    y\n".data ∧
    indent_text "x\n\ny\n".data "    ".data true ≠ "    x\n    \n    y\n".data := by
  refine ⟨by decide, by decide⟩

/-- C5 (corrected): for a body with a trailing newline flag set,
indent_text prefixes exactly the lines that contain a non-whitespace
character with the indent, and leaves blank lines (empty or
whitespace-only) unprefixed. -/
theorem indent_text_prefixes_nonblank (body pre : Str) :
    indent_text body pre true
      = joinNl ((splitNl body).map (fun l => if hasContent l then pre ++ l else l)) := by
  unfold indent_text
  simp only [Bool.not_true, Bool.false_and, Bool.false_eq_true, if_false]
  exact pytextwrapIndent_eq_map body pre

/-- C7: Scenario A with concrete values — dedenting the four-space
indented selection yields the expected body, indent and trailing flag,
and reindenting the formatter output restores the four spaces. -/
theorem scenarioA_concrete :
    dedent_text "    x=1\n    y=2\n".data = .ok ("x=1\ny=2\n".data, "    ".data, true) ∧
    indent_text "x = 1\ny = 2\n".data "    ".data true = "    x = 1\n    y = 2\n".data := by
  refine ⟨by decide, by decide⟩

end PyYapf
